import Mathlib

/-!
Shallow embedding of `src/src/hash_table.c` (an open-addressing, double-hashing
string hash table) and proofs about its specification claims.

Strings are modelled as lists of character codes (`List Nat`); C `NULL` item
pointers become `Slot.empty`, the shared `HT_DELETED_ITEM` sentinel becomes
`Slot.deleted`, and a live `ht_item` becomes `Slot.occupied key value`.
The probe loops of `ht_insert`, `ht_search` and `ht_delete` are `while` loops
in C; they are embedded with an explicit fuel parameter, `none` meaning the
fuel ran out before the loop exited.

Note: the source defines `ht_resize_up` / `ht_resize_down` / `ht_resize`, but
no call to them appears anywhere in `ht_insert` or `ht_delete` (they are dead
static functions), so the table's `size` and `base_size` never change after
creation; the embedding therefore needs no resize operation to cover every
reachable state.
-/

/-- Character-code string, the embedding of `char*` keys and values. -/
abbrev Str := List Nat

/-- `#define HT_PRIME_1 151` -/
def HT_PRIME_1 : Nat := 151

/-- `#define HT_PRIME_2 163` -/
def HT_PRIME_2 : Nat := 163

/-- `#define HT_INITIAL_BASE_SIZE 50` -/
def HT_INITIAL_BASE_SIZE : Nat := 50

/-- One bucket of the table: `NULL`, the `HT_DELETED_ITEM` sentinel, or a
live `ht_item` with its owned key and value strings. -/
inductive Slot where
  | empty : Slot
  | deleted : Slot
  | occupied (key value : Str) : Slot
  deriving DecidableEq

/-- The `ht_hash_table` struct: `base_size`, `size` (the capacity), `count`
(a C `int`, hence `Int` here) and the `items` array. -/
structure HashTable where
  base_size : Nat
  size : Nat
  count : Int
  items : List Slot
  deriving DecidableEq

/-- The slot stored at index `idx` (reads past the end yield `empty`,
matching `calloc` zero-initialisation; reachable accesses stay in bounds). -/
def HashTable.slot (t : HashTable) (idx : Nat) : Slot :=
  t.items.getD idx .empty

/-- The loop of `ht_hash` (lines 118–126): for each character `s[i]` the code
adds `pow(a, len_s - (i+1)) * s[i]` to the accumulator and reduces mod `m`.
`len` is the total string length, `i` the current index. -/
def ht_hashGo (a m len : Nat) : List Nat → Nat → Nat → Nat
  | [], _, hash => hash
  | c :: rest, i, hash => ht_hashGo a m len rest (i + 1) ((hash + a ^ (len - (i + 1)) * c) % m)

/-- `ht_hash(s, a, m)`: polynomial hash with incremental reduction of the
accumulator mod `m`. -/
def ht_hash (s : Str) (a m : Nat) : Nat :=
  ht_hashGo a m s.length s 0 0

/-- The list of per-character terms `pow(a, len_s - (i+1)) * s[i]` that
`ht_hash` adds to its accumulator (line 122); the C code computes each in
full before the `% m` reduction of the accumulator. -/
def ht_hashTerms (s : Str) (a : Nat) : List Nat :=
  (List.range s.length).map fun i => a ^ (s.length - (i + 1)) * s.getD i 0

/-- `ht_get_hash(s, num_buckets, attempt)` (lines 129–133): double-hashing
probe index `(hash_a + attempt * (hash_b + 1)) % num_buckets`. -/
def ht_get_hash (s : Str) (num_buckets attempt : Nat) : Nat :=
  (ht_hash s HT_PRIME_1 num_buckets + attempt * (ht_hash s HT_PRIME_2 num_buckets + 1))
    % num_buckets

/-- Trial-division primality check (used only to model `next_prime`). -/
def isPrimeB (n : Nat) : Bool :=
  decide (2 ≤ n) && (List.range n).all fun d => decide (d < 2) || decide (n % d ≠ 0)

/-- Search upward from `n` for the first prime, with enough fuel. -/
def nextPrimeAux : Nat → Nat → Nat
  | 0, n => n
  | fuel + 1, n => if isPrimeB n then n else nextPrimeAux fuel (n + 1)

/-- Modelled from the spec: `next_prime` lives in a prime-utility source file
that is not under `src/` (only its call sites in `hash_table.c` are); per the
spec, capacity is "the next prime ≥ a target size" (by Bertrand's postulate
the fuel `n + 2` always suffices to reach one). -/
def next_prime (n : Nat) : Nat :=
  nextPrimeAux (n + 2) n

/-- `ht_new_sized(base_size)` (lines 84–91): size is `next_prime(base_size)`,
count 0, all buckets `NULL`. -/
def ht_new_sized (base_size : Nat) : HashTable :=
  { base_size := base_size
    size := next_prime base_size
    count := 0
    items := List.replicate (next_prime base_size) .empty }

/-- `ht_new()` (lines 94–96). -/
def ht_new : HashTable :=
  ht_new_sized HT_INITIAL_BASE_SIZE

/-- The `while` loop of `ht_insert` (lines 142–153) plus the final placement
(lines 155–156), with fuel. Attempt `i` probes `ht_get_hash key size i`:
a `NULL` bucket ends the loop and receives the new item (count incremented);
the `HT_DELETED_ITEM` sentinel is skipped; an occupied bucket with equal key
is overwritten in place (count unchanged); otherwise probing continues. -/
def insertGo (t : HashTable) (k v : Str) : Nat → Nat → Option HashTable
  | 0, _ => none
  | fuel + 1, i =>
    let idx := ht_get_hash k t.size i
    match t.slot idx with
    | .empty => some { t with items := t.items.set idx (.occupied k v), count := t.count + 1 }
    | .deleted => insertGo t k v fuel (i + 1)
    | .occupied k' _ =>
      if k' = k then some { t with items := t.items.set idx (.occupied k v) }
      else insertGo t k v fuel (i + 1)

/-- `ht_insert(ht, key, value)` (lines 136–157), with fuel for the probe
loop; `none` means the loop had not exited after `fuel` probes. -/
def ht_insert (t : HashTable) (k v : Str) (fuel : Nat) : Option HashTable :=
  insertGo t k v fuel 0

/-- The `while` loop of `ht_search` (lines 165–175), with fuel. Result
`some (some v)` is a returned `item->value`, `some none` the `NULL`
not-found return, `none` fuel exhaustion. -/
def searchGo (t : HashTable) (k : Str) : Nat → Nat → Option (Option Str)
  | 0, _ => none
  | fuel + 1, i =>
    let idx := ht_get_hash k t.size i
    match t.slot idx with
    | .empty => some none
    | .deleted => searchGo t k fuel (i + 1)
    | .occupied k' v => if k' = k then some (some v) else searchGo t k fuel (i + 1)

/-- `ht_search(ht, key)` (lines 160–178), with fuel. -/
def ht_search (t : HashTable) (k : Str) (fuel : Nat) : Option (Option Str) :=
  searchGo t k fuel 0

/-- The `while` loop of `ht_delete` (lines 186–199), with fuel. On a match
the bucket becomes the `HT_DELETED_ITEM` sentinel and count is decremented;
reaching a `NULL` bucket ends the loop with the table unchanged. -/
def deleteGo (t : HashTable) (k : Str) : Nat → Nat → Option HashTable
  | 0, _ => none
  | fuel + 1, i =>
    let idx := ht_get_hash k t.size i
    match t.slot idx with
    | .empty => some t
    | .deleted => deleteGo t k fuel (i + 1)
    | .occupied k' _ =>
      if k' = k then some { t with items := t.items.set idx .deleted, count := t.count - 1 }
      else deleteGo t k fuel (i + 1)

/-- `ht_delete(ht, key)` (lines 181–200), with fuel. -/
def ht_delete (t : HashTable) (k : Str) (fuel : Nat) : Option HashTable :=
  deleteGo t k fuel 0

/-- Tables reachable from `ht_new()` by completed inserts and deletes. -/
inductive Reachable : HashTable → Prop where
  | new : Reachable ht_new
  | insert {t t' : HashTable} {k v : Str} {fuel : Nat} :
      Reachable t → ht_insert t k v fuel = some t' → Reachable t'
  | delete {t t' : HashTable} {k : Str} {fuel : Nat} :
      Reachable t → ht_delete t k fuel = some t' → Reachable t'

/-- Sequential insertion of a list of key/value pairs, propagating fuel
exhaustion. -/
def insertAll (ps : List (Str × Str)) (t : HashTable) : Option HashTable :=
  ps.foldlM (fun acc p => ht_insert acc p.1 p.2 60) t

/-- Horner evaluation of the string as digits in base `a` — the "polynomial
hash" of the spec's words (§4.1), used to compare `ht_hash` against. -/
def specPolyHash (s : Str) (a : Nat) : Nat :=
  s.foldl (fun h c => h * a + c) 0

/-- The table after `ht_insert(ht_new(), "i", "h")`: key `"i"` (code 105)
hashes to bucket 52 under both hash functions (105 mod 53 = 52), so its probe
step `hash_b + 1 = 53 ≡ 0 (mod 53)` keeps every probe at bucket 52. -/
def tMid : HashTable :=
  { base_size := 50, size := 53, count := 1,
    items := (List.replicate 53 Slot.empty).set 52 (.occupied [105] [104]) }

/-- The table after then deleting key `"i"`: bucket 52 is a tombstone. -/
def tCI : HashTable :=
  { base_size := 50, size := 53, count := 0,
    items := (List.replicate 53 Slot.empty).set 52 .deleted }

/-- The table after overwriting key `"i"` with value `"j"` in `tMid`. -/
def tMid2 : HashTable :=
  { base_size := 50, size := 53, count := 1,
    items := (List.replicate 53 Slot.empty).set 52 (.occupied [105] [106]) }

/-- 38 pairwise-distinct single-character keys (codes 65–102), each mapped
to itself as value. -/
def C1Keys : List (Str × Str) :=
  (List.range 38).map fun c => ([65 + c], [65 + c])

/-! ### Basic facts about slots, hashing and the fresh table -/

lemma getD_set_other {α : Type} (l : List α) {i j : Nat} (x d : α) (h : i ≠ j) :
    (l.set j x).getD i d = l.getD i d := by
  simp [List.getD, List.getElem?_set_ne (Ne.symm h)]

lemma getD_set_same {α : Type} (l : List α) {i : Nat} (x d : α) (h : i < l.length) :
    (l.set i x).getD i d = x := by
  simp [List.getD, List.getElem?_set_self, h]

lemma ht_hashGo_lt {a m len : Nat} (hm : 0 < m) :
    ∀ (s : List Nat) (i hash : Nat), hash < m → ht_hashGo a m len s i hash < m
  | [], _, _, h => h
  | _ :: rest, i, _, _ =>
    ht_hashGo_lt hm rest (i + 1) _ (Nat.mod_lt _ hm)

/-- `ht_hash` lands in `[0, m)` whenever the modulus is positive. -/
lemma ht_hash_lt (s : Str) (a : Nat) {m : Nat} (hm : 0 < m) : ht_hash s a m < m :=
  ht_hashGo_lt hm s 0 0 hm

lemma ht_get_hash_lt (s : Str) {m : Nat} (i : Nat) (hm : 0 < m) :
    ht_get_hash s m i < m :=
  Nat.mod_lt _ hm

lemma next_prime_50 : next_prime 50 = 53 := by decide

lemma ht_new_size : ht_new.size = 53 := by
  simp [ht_new, ht_new_sized, HT_INITIAL_BASE_SIZE, next_prime_50]

lemma ht_new_items_length : ht_new.items.length = 53 := by
  simp [ht_new, ht_new_sized, HT_INITIAL_BASE_SIZE, next_prime_50]

lemma ht_new_slot (idx : Nat) : ht_new.slot idx = .empty := by
  unfold ht_new ht_new_sized HashTable.slot
  rcases Nat.lt_or_ge idx (next_prime HT_INITIAL_BASE_SIZE) with h | h
  · simp [List.getD, List.getElem?_replicate, h]
  · simp [List.getD, List.getElem?_eq_none, h]

/-! ### Probe-scan bookkeeping and the loop characterisation lemmas -/

/-- The bucket examined on attempt `i` of the probe loops for key `k`. -/
def probe (t : HashTable) (k : Str) (i : Nat) : Nat :=
  ht_get_hash k t.size i

/-- The probe loop on key `k` has run through attempts `0..i-1` without
exiting: every bucket it saw was non-`NULL` and did not hold `k`. -/
def Scanned (t : HashTable) (k : Str) (i : Nat) : Prop :=
  ∀ b, b < i → t.slot (probe t k b) ≠ .empty ∧ ∀ w, t.slot (probe t k b) ≠ .occupied k w

lemma Scanned.zero (t : HashTable) (k : Str) : Scanned t k 0 := by
  intro b hb; omega

lemma Scanned.extend {t : HashTable} {k : Str} {i : Nat} (hsc : Scanned t k i)
    (h1 : t.slot (probe t k i) ≠ .empty)
    (h2 : ∀ w, t.slot (probe t k i) ≠ .occupied k w) :
    Scanned t k (i + 1) := by
  intro b hb
  rcases Nat.lt_or_ge b i with h | h
  · exact hsc b h
  · have hbi : b = i := by omega
    subst hbi; exact ⟨h1, h2⟩

/-- What a completed `ht_insert` probe loop did: it scanned some prefix of
the probe sequence finding neither `NULL` nor the key, and exited either by
placing the item in a `NULL` bucket (count incremented) or by overwriting an
occupied bucket holding the key (count unchanged). -/
lemma insertGo_result {t t' : HashTable} {k v : Str} :
    ∀ fuel i, Scanned t k i → insertGo t k v fuel i = some t' →
    ∃ a, i ≤ a ∧ Scanned t k a ∧
      ((t.slot (probe t k a) = .empty ∧
        t' = { t with items := t.items.set (probe t k a) (.occupied k v), count := t.count + 1 }) ∨
       (∃ w, t.slot (probe t k a) = .occupied k w ∧
        t' = { t with items := t.items.set (probe t k a) (.occupied k v) })) := by
  intro fuel
  induction fuel with
  | zero => intro i _ h; simp [insertGo] at h
  | succ fuel ih =>
    intro i hsc h
    simp only [insertGo] at h
    split at h
    next hslot =>
      refine ⟨i, le_refl i, hsc, Or.inl ⟨hslot, ?_⟩⟩
      exact (Option.some_inj.mp h).symm
    next hslot =>
      obtain ⟨a, ha, hsca, hres⟩ := ih (i + 1)
        (hsc.extend (by simp [probe, hslot]) (by simp [probe, hslot])) h
      exact ⟨a, by omega, hsca, hres⟩
    next k' w hslot =>
      by_cases hk : k' = k
      · subst hk
        rw [if_pos rfl] at h
        refine ⟨i, le_refl i, hsc, Or.inr ⟨w, hslot, ?_⟩⟩
        exact (Option.some_inj.mp h).symm
      · rw [if_neg hk] at h
        obtain ⟨a, ha, hsca, hres⟩ := ih (i + 1)
          (hsc.extend (by simp [probe, hslot])
            (by intro u; simp only [probe, hslot]; intro hc; exact hk (Slot.occupied.injEq .. ▸ hc).1)) h
        exact ⟨a, by omega, hsca, hres⟩

/-- What a completed `ht_delete` probe loop did: either it reached a `NULL`
bucket and left the table unchanged, or it found the key and replaced that
bucket by the tombstone sentinel, decrementing count. -/
lemma deleteGo_result {t t' : HashTable} {k : Str} :
    ∀ fuel i, Scanned t k i → deleteGo t k fuel i = some t' →
    (∃ a, i ≤ a ∧ Scanned t k a ∧ t.slot (probe t k a) = .empty ∧ t' = t) ∨
    (∃ a w, i ≤ a ∧ Scanned t k a ∧ t.slot (probe t k a) = .occupied k w ∧
      t' = { t with items := t.items.set (probe t k a) .deleted, count := t.count - 1 }) := by
  intro fuel
  induction fuel with
  | zero => intro i _ h; simp [deleteGo] at h
  | succ fuel ih =>
    intro i hsc h
    simp only [deleteGo] at h
    split at h
    next hslot =>
      exact Or.inl ⟨i, le_refl i, hsc, hslot, (Option.some_inj.mp h).symm⟩
    next hslot =>
      rcases ih (i + 1) (hsc.extend (by simp [probe, hslot]) (by simp [probe, hslot])) h with
        ⟨a, ha, hsca, hrest⟩ | ⟨a, w, ha, hsca, hrest⟩
      · exact Or.inl ⟨a, by omega, hsca, hrest⟩
      · exact Or.inr ⟨a, w, by omega, hsca, hrest⟩
    next k' w hslot =>
      by_cases hk : k' = k
      · subst hk
        rw [if_pos rfl] at h
        exact Or.inr ⟨i, w, le_refl i, hsc, hslot, (Option.some_inj.mp h).symm⟩
      · rw [if_neg hk] at h
        rcases ih (i + 1) (hsc.extend (by simp [probe, hslot])
            (by intro u; simp only [probe, hslot]; intro hc; exact hk (Slot.occupied.injEq .. ▸ hc).1)) h with
          ⟨a, ha, hsca, hrest⟩ | ⟨a, u, ha, hsca, hrest⟩
        · exact Or.inl ⟨a, by omega, hsca, hrest⟩
        · exact Or.inr ⟨a, u, by omega, hsca, hrest⟩

/-- What a completed `ht_search` probe loop did: either it reached a `NULL`
bucket and returned `NULL`, or it found an occupied bucket holding the key
and returned its value. -/
lemma searchGo_result {t : HashTable} {k : Str} {r : Option Str} :
    ∀ fuel i, Scanned t k i → searchGo t k fuel i = some r →
    (∃ a, i ≤ a ∧ Scanned t k a ∧ t.slot (probe t k a) = .empty ∧ r = none) ∨
    (∃ a w, i ≤ a ∧ Scanned t k a ∧ t.slot (probe t k a) = .occupied k w ∧ r = some w) := by
  intro fuel
  induction fuel with
  | zero => intro i _ h; simp [searchGo] at h
  | succ fuel ih =>
    intro i hsc h
    simp only [searchGo] at h
    split at h
    next hslot =>
      exact Or.inl ⟨i, le_refl i, hsc, hslot, (Option.some_inj.mp h).symm⟩
    next hslot =>
      rcases ih (i + 1) (hsc.extend (by simp [probe, hslot]) (by simp [probe, hslot])) h with
        ⟨a, ha, hsca, hrest⟩ | ⟨a, w, ha, hsca, hrest⟩
      · exact Or.inl ⟨a, by omega, hsca, hrest⟩
      · exact Or.inr ⟨a, w, by omega, hsca, hrest⟩
    next k' w hslot =>
      by_cases hk : k' = k
      · subst hk
        rw [if_pos rfl] at h
        exact Or.inr ⟨i, w, le_refl i, hsc, hslot, (Option.some_inj.mp h).symm⟩
      · rw [if_neg hk] at h
        rcases ih (i + 1) (hsc.extend (by simp [probe, hslot])
            (by intro u; simp only [probe, hslot]; intro hc; exact hk (Slot.occupied.injEq .. ▸ hc).1)) h with
          ⟨a, ha, hsca, hrest⟩ | ⟨a, u, ha, hsca, hrest⟩
        · exact Or.inl ⟨a, by omega, hsca, hrest⟩
        · exact Or.inr ⟨a, u, by omega, hsca, hrest⟩

/-! ### The reachable-state invariant -/

/-- No two occupied buckets hold the same key. -/
def NoDupKeys (t : HashTable) : Prop :=
  ∀ i j k v w, i < t.items.length → j < t.items.length →
    t.slot i = .occupied k v → t.slot j = .occupied k w → i = j

/-- Every occupied bucket lies on its key's probe sequence, with no `NULL`
bucket at any earlier attempt (the insertion-time probe chain is intact). -/
def ChainOK (t : HashTable) : Prop :=
  ∀ i k v, i < t.items.length → t.slot i = .occupied k v →
    ∃ a, probe t k a = i ∧ ∀ b, b < a → t.slot (probe t k b) ≠ .empty

/-- Invariant of every reachable table: geometry frozen at creation (no code
path of `ht_insert`/`ht_delete` ever calls a resize), keys unique, probe
chains intact. -/
def TableInv (t : HashTable) : Prop :=
  t.base_size = 50 ∧ t.size = 53 ∧ t.items.length = 53 ∧ NoDupKeys t ∧ ChainOK t

lemma getD_set_cases {l : List Slot} {j : Nat} (hj : j < l.length) (idx : Nat) (x : Slot) :
    (l.set j x).getD idx .empty = if idx = j then x else l.getD idx .empty := by
  by_cases h : idx = j
  · subst h; rw [if_pos rfl]; exact getD_set_same l x Slot.empty hj
  · rw [if_neg h]; exact getD_set_other l x Slot.empty h

lemma tableInv_ht_new : TableInv ht_new := by
  refine ⟨rfl, ht_new_size, ht_new_items_length, ?_, ?_⟩
  · intro i j k v w _ _ hi _
    rw [ht_new_slot] at hi; cases hi
  · intro i k v _ hi
    rw [ht_new_slot] at hi; cases hi

/-- If a scan for `k` ended on a `NULL` bucket, no occupied bucket anywhere
holds `k` (the probe chain of any such bucket would have stopped the scan). -/
lemma no_occupied_of_scanned_empty {t : HashTable} {k : Str} {a : Nat}
    (hch : ChainOK t) (hsc : Scanned t k a) (hemp : t.slot (probe t k a) = .empty) :
    ∀ j w, j < t.items.length → t.slot j ≠ .occupied k w := by
  intro j w hj hocc
  obtain ⟨c, hc, hbef⟩ := hch j k w hj hocc
  rcases Nat.lt_trichotomy c a with hlt | heq | hgt
  · exact (hsc c hlt).2 w (hc ▸ hocc)
  · subst heq; rw [hc] at hemp; rw [hemp] at hocc; cases hocc
  · exact hbef a hgt hemp

/-- `ht_insert` preserves the invariant. -/
lemma tableInv_insert {t t' : HashTable} {k v : Str} {fuel : Nat}
    (hI : TableInv t) (h : ht_insert t k v fuel = some t') : TableInv t' := by
  obtain ⟨hb, hs, hl, hnd, hch⟩ := hI
  obtain ⟨a, -, hsca, hcase⟩ := insertGo_result fuel 0 (Scanned.zero t k) h
  have hidx : probe t k a < t.items.length := by
    rw [hl, probe, hs]; exact ht_get_hash_lt k a (by norm_num)
  have hidxG : ht_get_hash k t.size a < t.items.length := hidx
  rcases hcase with ⟨hemp, rfl⟩ | ⟨w, hocc, rfl⟩
  · refine ⟨hb, hs, by simpa using hl, ?_, ?_⟩
    · intro i j κ u₁ u₂ hi hj hsi hsj
      simp only [HashTable.slot, List.length_set] at hi hj hsi hsj
      rw [getD_set_cases hidx] at hsi hsj
      by_cases hiι : i = probe t k a <;> by_cases hjι : j = probe t k a
      · rw [hiι, hjι]
      · rw [if_pos hiι] at hsi
        injection hsi with hκ _
        subst hκ
        rw [if_neg hjι] at hsj
        exact absurd hsj (no_occupied_of_scanned_empty hch hsca hemp j u₂ hj)
      · rw [if_pos hjι] at hsj
        injection hsj with hκ _
        subst hκ
        rw [if_neg hiι] at hsi
        exact absurd hsi (no_occupied_of_scanned_empty hch hsca hemp i u₁ hi)
      · rw [if_neg hiι] at hsi; rw [if_neg hjι] at hsj
        exact hnd i j κ u₁ u₂ hi hj hsi hsj
    · intro i κ u hi hocc'
      simp only [HashTable.slot, List.length_set, probe] at hi hocc' ⊢
      rw [getD_set_cases hidxG] at hocc'
      by_cases hiι : i = ht_get_hash k t.size a
      · rw [if_pos hiι] at hocc'
        injection hocc' with hκ hu
        subst hκ
        refine ⟨a, by rw [hiι], ?_⟩
        intro b hb
        rw [getD_set_cases hidxG]
        by_cases hpb : ht_get_hash k t.size b = ht_get_hash k t.size a
        · rw [if_pos hpb]; simp
        · rw [if_neg hpb]
          exact (hsca b hb).1
      · rw [if_neg hiι] at hocc'
        obtain ⟨c, hc, hbef⟩ := hch i κ u hi hocc'
        refine ⟨c, hc, ?_⟩
        intro b hb
        rw [getD_set_cases hidxG]
        by_cases hpb : ht_get_hash κ t.size b = ht_get_hash k t.size a
        · rw [if_pos hpb]; simp
        · rw [if_neg hpb]
          exact hbef b hb
  · refine ⟨hb, hs, by simpa using hl, ?_, ?_⟩
    · intro i j κ u₁ u₂ hi hj hsi hsj
      simp only [HashTable.slot, List.length_set] at hi hj hsi hsj
      rw [getD_set_cases hidx] at hsi hsj
      by_cases hiι : i = probe t k a <;> by_cases hjι : j = probe t k a
      · rw [hiι, hjι]
      · rw [if_pos hiι] at hsi
        injection hsi with hκ _
        subst hκ
        rw [if_neg hjι] at hsj
        exact absurd (hnd j (probe t k a) k u₂ w hj hidx hsj hocc) hjι
      · rw [if_pos hjι] at hsj
        injection hsj with hκ _
        subst hκ
        rw [if_neg hiι] at hsi
        exact absurd (hnd i (probe t k a) k u₁ w hi hidx hsi hocc) hiι
      · rw [if_neg hiι] at hsi; rw [if_neg hjι] at hsj
        exact hnd i j κ u₁ u₂ hi hj hsi hsj
    · intro i κ u hi hocc'
      simp only [HashTable.slot, List.length_set, probe] at hi hocc' ⊢
      rw [getD_set_cases hidxG] at hocc'
      by_cases hiι : i = ht_get_hash k t.size a
      · rw [if_pos hiι] at hocc'
        injection hocc' with hκ hu
        subst hκ
        obtain ⟨c, hc, hbef⟩ := hch (probe t k a) k w hidx hocc
        refine ⟨c, by rw [hiι]; exact hc, ?_⟩
        intro b hb
        rw [getD_set_cases hidxG]
        by_cases hpb : ht_get_hash k t.size b = ht_get_hash k t.size a
        · rw [if_pos hpb]; simp
        · rw [if_neg hpb]
          exact hbef b hb
      · rw [if_neg hiι] at hocc'
        obtain ⟨c, hc, hbef⟩ := hch i κ u hi hocc'
        refine ⟨c, hc, ?_⟩
        intro b hb
        rw [getD_set_cases hidxG]
        by_cases hpb : ht_get_hash κ t.size b = ht_get_hash k t.size a
        · rw [if_pos hpb]; simp
        · rw [if_neg hpb]
          exact hbef b hb

/-- `ht_delete` preserves the invariant. -/
lemma tableInv_delete {t t' : HashTable} {k : Str} {fuel : Nat}
    (hI : TableInv t) (h : ht_delete t k fuel = some t') : TableInv t' := by
  obtain ⟨hb, hs, hl, hnd, hch⟩ := hI
  rcases deleteGo_result fuel 0 (Scanned.zero t k) h with
    ⟨a, -, hsca, hemp, rfl⟩ | ⟨a, w, -, hsca, hocc, rfl⟩
  · exact ⟨hb, hs, hl, hnd, hch⟩
  · have hidx : probe t k a < t.items.length := by
      rw [hl, probe, hs]; exact ht_get_hash_lt k a (by norm_num)
    have hidxG : ht_get_hash k t.size a < t.items.length := hidx
    refine ⟨hb, hs, by simpa using hl, ?_, ?_⟩
    · intro i j κ u₁ u₂ hi hj hsi hsj
      simp only [HashTable.slot, List.length_set] at hi hj hsi hsj
      rw [getD_set_cases hidx] at hsi hsj
      by_cases hiι : i = probe t k a
      · rw [if_pos hiι] at hsi; cases hsi
      · by_cases hjι : j = probe t k a
        · rw [if_pos hjι] at hsj; cases hsj
        · rw [if_neg hiι] at hsi; rw [if_neg hjι] at hsj
          exact hnd i j κ u₁ u₂ hi hj hsi hsj
    · intro i κ u hi hocc'
      simp only [HashTable.slot, List.length_set, probe] at hi hocc' ⊢
      rw [getD_set_cases hidxG] at hocc'
      by_cases hiι : i = ht_get_hash k t.size a
      · rw [if_pos hiι] at hocc'; cases hocc'
      · rw [if_neg hiι] at hocc'
        obtain ⟨c, hc, hbef⟩ := hch i κ u hi hocc'
        refine ⟨c, hc, ?_⟩
        intro b hb
        rw [getD_set_cases hidxG]
        by_cases hpb : ht_get_hash κ t.size b = ht_get_hash k t.size a
        · rw [if_pos hpb]; simp
        · rw [if_neg hpb]
          exact hbef b hb

/-- Every reachable table satisfies the invariant. -/
lemma reachable_tableInv {t : HashTable} (h : Reachable t) : TableInv t := by
  induction h with
  | new => exact tableInv_ht_new
  | insert _ hstep ih => exact tableInv_insert ih hstep
  | delete _ hstep ih => exact tableInv_delete ih hstep

/-! ### Operational consequences of the invariant -/

/-- If `k` occupies bucket `s` (with an intact chain ending at attempt `c`),
the search loop finds its value in at most `c + 1` probes. -/
lemma search_finds {t : HashTable} {k v : Str} {s : Nat}
    (hnd : NoDupKeys t) (hlen : t.items.length = t.size)
    (hs : s < t.items.length) (hocc : t.slot s = .occupied k v)
    {c : Nat} (hc : probe t k c = s) (hbef : ∀ b, b < c → t.slot (probe t k b) ≠ .empty) :
    ∀ fuel i, i ≤ c → c - i < fuel → searchGo t k fuel i = some (some v) := by
  simp only [probe] at hc hbef
  intro fuel
  induction fuel with
  | zero => intro i _ h; omega
  | succ fuel ih =>
    intro i hic hfuel
    simp only [searchGo]
    split
    next hslot =>
      exfalso
      rcases Nat.lt_or_eq_of_le hic with hlt | heq
      · exact hbef i hlt hslot
      · subst heq; rw [hc] at hslot; rw [hslot] at hocc; cases hocc
    next hslot =>
      have hic' : i < c := by
        rcases Nat.lt_or_eq_of_le hic with hlt | heq
        · exact hlt
        · subst heq; rw [hc] at hslot; rw [hslot] at hocc; cases hocc
      exact ih (i + 1) hic' (by omega)
    next k' w hslot =>
      by_cases hk : k' = k
      · rw [if_pos hk]
        rw [hk] at hslot
        have hpi : ht_get_hash k t.size i < t.items.length := by
          rw [hlen]
          exact ht_get_hash_lt k i (by omega)
        have heq := hnd _ s k w v hpi hs hslot hocc
        rw [heq] at hslot
        rw [hslot] at hocc
        injection hocc with _ hv
        rw [hv]
      · rw [if_neg hk]
        have hic' : i < c := by
          rcases Nat.lt_or_eq_of_le hic with hlt | heq
          · exact hlt
          · subst heq; rw [hc] at hslot; rw [hslot] at hocc
            injection hocc with hκ _
            exact absurd hκ hk
        exact ih (i + 1) hic' (by omega)

/-- A search for a key held by no occupied bucket reports `NULL` whenever
its loop exits. -/
lemma search_none_of_absent {t : HashTable} {k : Str}
    (hlen : t.items.length = t.size) (hpos : 0 < t.size)
    (habs : ∀ j w, j < t.items.length → t.slot j ≠ .occupied k w) :
    ∀ fuel r, ht_search t k fuel = some r → r = none := by
  intro fuel r h
  rcases searchGo_result fuel 0 (Scanned.zero t k) h with
    ⟨a, -, -, -, hr⟩ | ⟨a, w, -, -, hocc, -⟩
  · exact hr
  · exfalso
    refine habs (probe t k a) w ?_ hocc
    rw [hlen]
    exact ht_get_hash_lt k a hpos

/-- A completed `ht_insert` leaves the inserted pair in some bucket. -/
lemma insert_found {t t' : HashTable} {k v : Str} {fuel : Nat}
    (hlen : t.items.length = t.size) (hpos : 0 < t.size)
    (h : ht_insert t k v fuel = some t') :
    ∃ s, s < t'.items.length ∧ t'.slot s = .occupied k v ∧
      t'.size = t.size ∧ t'.items.length = t.items.length := by
  obtain ⟨a, -, hsca, hcase⟩ := insertGo_result fuel 0 (Scanned.zero t k) h
  have hidx : probe t k a < t.items.length := by
    rw [hlen]; exact ht_get_hash_lt k a hpos
  rcases hcase with ⟨hemp, rfl⟩ | ⟨w, hocc, rfl⟩ <;>
    exact ⟨probe t k a, by simpa using hidx,
      by simp only [HashTable.slot]; exact getD_set_same _ _ _ hidx, rfl, by simp⟩

/-- Inserting a key already held by bucket `s` of an invariant-satisfying
table overwrites that same bucket in place and leaves `count` unchanged. -/
lemma insert_overwrites {t t' : HashTable} {k v w : Str} {s : Nat} {fuel : Nat}
    (hI : TableInv t) (hs : s < t.items.length) (hocc : t.slot s = .occupied k w)
    (h : ht_insert t k v fuel = some t') :
    t' = { t with items := t.items.set s (.occupied k v) } := by
  obtain ⟨-, hsz, hl, hnd, hch⟩ := hI
  obtain ⟨a, -, hsca, hcase⟩ := insertGo_result fuel 0 (Scanned.zero t k) h
  have hidx : probe t k a < t.items.length := by
    rw [hl, probe, hsz]; exact ht_get_hash_lt k a (by norm_num)
  rcases hcase with ⟨hemp, rfl⟩ | ⟨w', hocc', rfl⟩
  · exact absurd hocc (no_occupied_of_scanned_empty hch hsca hemp s w hs)
  · have := hnd (probe t k a) s k w' w hidx hs hocc' hocc
    rw [this]

/-- Deleting a key held by bucket `s` of an invariant-satisfying table
tombstones exactly that bucket and decrements `count` by one. -/
lemma delete_removes {t t' : HashTable} {k v : Str} {s : Nat} {fuel : Nat}
    (hI : TableInv t) (hs : s < t.items.length) (hocc : t.slot s = .occupied k v)
    (h : ht_delete t k fuel = some t') :
    t' = { t with items := t.items.set s .deleted, count := t.count - 1 } := by
  obtain ⟨-, hsz, hl, hnd, hch⟩ := hI
  rcases deleteGo_result fuel 0 (Scanned.zero t k) h with
    ⟨a, -, hsca, hemp, rfl⟩ | ⟨a, w, -, hsca, hocc', rfl⟩
  · exact absurd hocc (no_occupied_of_scanned_empty hch hsca hemp s v hs)
  · have hidx : probe t k a < t.items.length := by
      rw [hl, probe, hsz]; exact ht_get_hash_lt k a (by norm_num)
    have := hnd (probe t k a) s k w v hidx hs hocc' hocc
    rw [this]

/-! ### Termination of the probe loops -/

/-- The search loop exits within `fuel` probes once a `NULL` bucket lies at
probe offset `d < fuel`. -/
lemma searchGo_exits {t : HashTable} {k : Str} :
    ∀ fuel i d, t.slot (probe t k (i + d)) = .empty → d < fuel →
      searchGo t k fuel i ≠ none := by
  intro fuel
  induction fuel with
  | zero => intro i d _ h; omega
  | succ fuel ih =>
    intro i d hemp hd
    simp only [probe] at hemp
    simp only [searchGo]
    split
    next => simp
    next hslot =>
      cases d with
      | zero => rw [Nat.add_zero] at hemp; rw [hemp] at hslot; cases hslot
      | succ d =>
        have hemp' : t.slot (probe t k (i + 1 + d)) = .empty := by
          simp only [probe]
          rw [show i + 1 + d = i + (d + 1) by omega]
          exact hemp
        exact ih (i + 1) d hemp' (by omega)
    next k' w hslot =>
      by_cases hk : k' = k
      · rw [if_pos hk]; simp
      · rw [if_neg hk]
        cases d with
        | zero => rw [Nat.add_zero] at hemp; rw [hemp] at hslot; cases hslot
        | succ d =>
          have hemp' : t.slot (probe t k (i + 1 + d)) = .empty := by
            simp only [probe]
            rw [show i + 1 + d = i + (d + 1) by omega]
            exact hemp
          exact ih (i + 1) d hemp' (by omega)

/-- The insert loop exits within `fuel` probes once a `NULL` bucket lies at
probe offset `d < fuel`. -/
lemma insertGo_exits {t : HashTable} {k v : Str} :
    ∀ fuel i d, t.slot (probe t k (i + d)) = .empty → d < fuel →
      insertGo t k v fuel i ≠ none := by
  intro fuel
  induction fuel with
  | zero => intro i d _ h; omega
  | succ fuel ih =>
    intro i d hemp hd
    simp only [probe] at hemp
    simp only [insertGo]
    split
    next => simp
    next hslot =>
      cases d with
      | zero => rw [Nat.add_zero] at hemp; rw [hemp] at hslot; cases hslot
      | succ d =>
        have hemp' : t.slot (probe t k (i + 1 + d)) = .empty := by
          simp only [probe]
          rw [show i + 1 + d = i + (d + 1) by omega]
          exact hemp
        exact ih (i + 1) d hemp' (by omega)
    next k' w hslot =>
      by_cases hk : k' = k
      · rw [if_pos hk]; simp
      · rw [if_neg hk]
        cases d with
        | zero => rw [Nat.add_zero] at hemp; rw [hemp] at hslot; cases hslot
        | succ d =>
          have hemp' : t.slot (probe t k (i + 1 + d)) = .empty := by
            simp only [probe]
            rw [show i + 1 + d = i + (d + 1) by omega]
            exact hemp
          exact ih (i + 1) d hemp' (by omega)

/-- The delete loop exits within `fuel` probes once a `NULL` bucket lies at
probe offset `d < fuel`. -/
lemma deleteGo_exits {t : HashTable} {k : Str} :
    ∀ fuel i d, t.slot (probe t k (i + d)) = .empty → d < fuel →
      deleteGo t k fuel i ≠ none := by
  intro fuel
  induction fuel with
  | zero => intro i d _ h; omega
  | succ fuel ih =>
    intro i d hemp hd
    simp only [probe] at hemp
    simp only [deleteGo]
    split
    next => simp
    next hslot =>
      cases d with
      | zero => rw [Nat.add_zero] at hemp; rw [hemp] at hslot; cases hslot
      | succ d =>
        have hemp' : t.slot (probe t k (i + 1 + d)) = .empty := by
          simp only [probe]
          rw [show i + 1 + d = i + (d + 1) by omega]
          exact hemp
        exact ih (i + 1) d hemp' (by omega)
    next k' w hslot =>
      by_cases hk : k' = k
      · rw [if_pos hk]; simp
      · rw [if_neg hk]
        cases d with
        | zero => rw [Nat.add_zero] at hemp; rw [hemp] at hslot; cases hslot
        | succ d =>
          have hemp' : t.slot (probe t k (i + 1 + d)) = .empty := by
            simp only [probe]
            rw [show i + 1 + d = i + (d + 1) by omega]
            exact hemp
          exact ih (i + 1) d hemp' (by omega)

/-- Arithmetic core of probe coverage: over a prime modulus, a stride whose
residue is nonzero reaches every residue within `m` steps. -/
lemma stride_surjective {A B m : Nat} (hm : Nat.Prime m) (hB : B % m ≠ 0)
    {e : Nat} (he : e < m) : ∃ a, a < m ∧ (A + a * B) % m = e := by
  have hm2 : 2 ≤ m := hm.two_le
  have hco : Nat.gcd m B = 1 := by
    refine (Nat.Prime.coprime_iff_not_dvd hm).mpr ?_
    intro hdvd
    exact hB (Nat.dvd_iff_mod_eq_zero.mp hdvd)
  have hinj : Function.Injective
      (fun i : Fin m => (⟨(A + i.val * B) % m, Nat.mod_lt _ (by omega)⟩ : Fin m)) := by
    intro i j hij
    apply Fin.ext
    have h1 : (A + i.val * B) % m = (A + j.val * B) % m := congrArg Fin.val hij
    have h2 : i.val * B ≡ j.val * B [MOD m] := Nat.ModEq.add_left_cancel' A h1
    have h3 : i.val ≡ j.val [MOD m] := Nat.ModEq.cancel_right_of_coprime hco h2
    have h4 := h3
    unfold Nat.ModEq at h4
    rwa [Nat.mod_eq_of_lt i.isLt, Nat.mod_eq_of_lt j.isLt] at h4
  obtain ⟨a, hfa⟩ := Finite.injective_iff_surjective.mp hinj ⟨e, he⟩
  exact ⟨a.val, a.isLt, congrArg Fin.val hfa⟩

/-- With a probe step nonzero mod the prime capacity, the probe sequence for
`k` covers every bucket index within `t.size` attempts. -/
lemma probe_surjective {t : HashTable} {k : Str} (hs : t.size = 53)
    (hstep : (ht_hash k HT_PRIME_2 t.size + 1) % t.size ≠ 0) {e : Nat} (he : e < t.size) :
    ∃ a, a < t.size ∧ probe t k a = e := by
  have hB : (ht_hash k HT_PRIME_2 t.size + 1) % 53 ≠ 0 := by rw [← hs]; exact hstep
  have he' : e < 53 := hs ▸ he
  obtain ⟨a, ha, hmod⟩ := stride_surjective (A := ht_hash k HT_PRIME_1 t.size)
    (by norm_num) hB he'
  refine ⟨a, by rw [hs]; exact ha, ?_⟩
  rw [probe, ht_get_hash]
  have hcast : (ht_hash k HT_PRIME_1 t.size + a * (ht_hash k HT_PRIME_2 t.size + 1)) % t.size
      = (ht_hash k HT_PRIME_1 t.size + a * (ht_hash k HT_PRIME_2 t.size + 1)) % 53 := by
    rw [hs]
  rw [hcast]
  exact hmod

/-! ### `ht_hash` computes the base-`a` polynomial of the string mod `m` -/

lemma horner_foldl (a : Nat) :
    ∀ (s : List Nat) (acc : Nat),
      s.foldl (fun h c => h * a + c) acc
        = acc * a ^ s.length + s.foldl (fun h c => h * a + c) 0 := by
  intro s
  induction s with
  | nil => intro acc; simp
  | cons c r ih =>
    intro acc
    simp only [List.foldl_cons, List.length_cons]
    rw [ih (acc * a + c), ih (0 * a + c)]
    ring

lemma specPolyHash_cons (a c : Nat) (r : List Nat) :
    specPolyHash (c :: r) a = a ^ r.length * c + specPolyHash r a := by
  simp only [specPolyHash, List.foldl_cons]
  rw [horner_foldl a r (0 * a + c)]
  ring

lemma ht_hashGo_mod (a m len : Nat) :
    ∀ (rest : List Nat) (i hsh : Nat), i + rest.length = len →
      ht_hashGo a m len rest i hsh % m = (hsh + specPolyHash rest a) % m := by
  intro rest
  induction rest with
  | nil => intro i hsh _; simp [ht_hashGo, specPolyHash]
  | cons c r ih =>
    intro i hsh hlen
    simp only [List.length_cons] at hlen
    simp only [ht_hashGo]
    rw [ih (i + 1) _ (by omega)]
    rw [Nat.mod_add_mod]
    have hexp : len - (i + 1) = r.length := by omega
    rw [hexp, specPolyHash_cons]
    ring_nf

/-- `ht_hash` equals the base-`a` polynomial of the character codes reduced
mod `m` (exact-arithmetic semantics). -/
lemma ht_hash_eq_specPolyHash (s : Str) (a : Nat) {m : Nat} (hm : 0 < m) :
    ht_hash s a m = specPolyHash s a % m := by
  cases s with
  | nil => simp [ht_hash, ht_hashGo, specPolyHash]
  | cons c r =>
    have h2 := ht_hashGo_mod a m (c :: r).length (c :: r) 0 0 (by simp)
    rw [Nat.mod_eq_of_lt (ht_hashGo_lt hm (c :: r) 0 0 hm)] at h2
    simpa [ht_hash] using h2

/-- If `k` occupies bucket `s` of an invariant-satisfying table, some fuel
makes `ht_search` return its stored value. -/
lemma search_found_value {t : HashTable} {k v : Str} {s : Nat} (hI : TableInv t)
    (hs : s < t.items.length) (hocc : t.slot s = .occupied k v) :
    ∃ fuel, ht_search t k fuel = some (some v) := by
  obtain ⟨-, hsz, hl, hnd, hch⟩ := hI
  obtain ⟨c, hc, hbef⟩ := hch s k v hs hocc
  exact ⟨c + 1,
    search_finds hnd (by rw [hl, hsz]) hs hocc hc hbef (c + 1) 0 (Nat.zero_le c) (by omega)⟩

/-! ### Claim theorems -/

/-- C1 (code bug): inserting 38 pairwise-distinct keys into a fresh table
leaves the capacity at 53 with count 38, so the load factor 38/53 exceeds
the 70% upper threshold (70·53 < 100·38) and the capacity falls short of
`N / upper_threshold` (53·7 < 38·10): no resize is ever triggered, because
`ht_insert`/`ht_delete` never call `ht_resize_up`/`ht_resize_down`. -/
theorem C1_no_resize_on_inserts :
    (C1Keys.map Prod.fst).Nodup ∧
    (insertAll C1Keys ht_new).map (fun t => (t.size, t.count)) = some (53, 38) ∧
    70 * 53 < 100 * 38 ∧ 53 * 7 < 38 * 10 :=
  ⟨by decide, by decide, by norm_num, by norm_num⟩

/-- C2 counterexample: for the prime capacity m = 2 and the key "a"
(code 97), `hash_b = 97 mod 2 = 1 = m - 1`, so the probe step
`hash_b + 1 = 2 ≡ 0 (mod 2)`: the claim "the step size is never zero
modulo m" is false. -/
theorem C2_counterexample :
    Nat.Prime 2 ∧ (ht_hash [97] HT_PRIME_2 2 + 1) % 2 = 0 :=
  ⟨by norm_num, by decide⟩

/-- C2 (amended): the step `hash_b + 1` lies in `[1, m]`; it vanishes mod m
exactly when `hash_b = m - 1`, and in that degenerate case every probe
attempt examines the same bucket `hash_a`. -/
theorem C2_step_zero_iff (s : Str) (m : Nat) (hm : 2 ≤ m) :
    ((ht_hash s HT_PRIME_2 m + 1) % m = 0 ↔ ht_hash s HT_PRIME_2 m = m - 1) ∧
    ((ht_hash s HT_PRIME_2 m + 1) % m = 0 →
      ∀ i, ht_get_hash s m i = ht_hash s HT_PRIME_1 m) := by
  have hb := ht_hash_lt s HT_PRIME_2 (show 0 < m by omega)
  constructor
  · constructor
    · intro hz
      have hdvd := Nat.dvd_of_mod_eq_zero hz
      have hle := Nat.le_of_dvd (by omega) hdvd
      omega
    · intro heq
      have : ht_hash s HT_PRIME_2 m + 1 = m := by omega
      rw [this, Nat.mod_self]
  · intro hz i
    obtain ⟨q, hq⟩ := Nat.dvd_of_mod_eq_zero hz
    rw [ht_get_hash, hq]
    have hrw : ht_hash s HT_PRIME_1 m + i * (m * q)
        = ht_hash s HT_PRIME_1 m + i * q * m := by ring
    rw [hrw, Nat.add_mul_mod_self_right,
      Nat.mod_eq_of_lt (ht_hash_lt s HT_PRIME_1 (show 0 < m by omega))]

/-- C2 witness: the amended statement evaluated at key "a" and capacity 53. -/
theorem C2_step_zero_iff_witness :
    2 ≤ 53 ∧
    (((ht_hash [97] HT_PRIME_2 53 + 1) % 53 = 0 ↔ ht_hash [97] HT_PRIME_2 53 = 53 - 1) ∧
     ((ht_hash [97] HT_PRIME_2 53 + 1) % 53 = 0 →
       ∀ i, ht_get_hash [97] 53 i = ht_hash [97] HT_PRIME_1 53)) :=
  ⟨by norm_num, C2_step_zero_iff [97] 53 (by norm_num)⟩

/-- C3 counterexample: `tCI` is reachable (insert "i" into a fresh table,
then delete it), yet searching "i" probes 54 > capacity times without ever
meeting a `NULL` bucket — the probe step is `≡ 0 (mod 53)`, so every probe
revisits the tombstone at bucket 52 and the loop never terminates even
though 52 buckets are Empty. -/
theorem C3_counterexample :
    Reachable tCI ∧ ht_search tCI [105] 54 = none :=
  ⟨Reachable.delete
      (Reachable.insert Reachable.new
        (show ht_insert ht_new [105] [104] 1 = some tMid by decide))
      (show ht_delete tMid [105] 1 = some tCI by decide),
   by decide⟩

/-- C3 (amended): for every reachable table and key whose probe step is
nonzero modulo the capacity, if the table still has a `NULL` bucket then
the probe loops of search, insert and delete all exit within `capacity`
probes. -/
theorem C3_termination (t : HashTable) (k v : Str) (hr : Reachable t)
    (hstep : (ht_hash k HT_PRIME_2 t.size + 1) % t.size ≠ 0)
    (hemp : ∃ e, e < t.items.length ∧ t.slot e = .empty) :
    ht_search t k 53 ≠ none ∧ ht_insert t k v 53 ≠ none ∧ ht_delete t k 53 ≠ none := by
  obtain ⟨-, hs, hl, -, -⟩ := reachable_tableInv hr
  obtain ⟨e, he, hempty⟩ := hemp
  have he' : e < t.size := by rw [hs]; rw [hl] at he; exact he
  obtain ⟨a, ha, hpa⟩ := probe_surjective hs hstep he'
  have hempA : t.slot (probe t k (0 + a)) = .empty := by
    rw [Nat.zero_add, hpa]; exact hempty
  have ha53 : a < 53 := by rw [← hs]; exact ha
  exact ⟨searchGo_exits 53 0 a hempA ha53,
         insertGo_exits 53 0 a hempA ha53,
         deleteGo_exits 53 0 a hempA ha53⟩

/-- C3 witness: the amended termination statement evaluated on the fresh
table with key "a". -/
theorem C3_termination_witness :
    ht_search ht_new [97] 53 ≠ none ∧
    ht_insert ht_new [97] [98] 53 ≠ none ∧
    ht_delete ht_new [97] 53 ≠ none :=
  C3_termination ht_new [97] [98] Reachable.new (by decide) ⟨0, by decide, by decide⟩

/-- C4: on any reachable table, a completed insert followed by a search for
the same key returns the value just inserted (with enough fuel for the
search loop). -/
theorem C4_insert_search_roundtrip {t t' : HashTable} {k v : Str} {fuel : Nat}
    (hr : Reachable t) (h : ht_insert t k v fuel = some t') :
    ∃ fuel2, ht_search t' k fuel2 = some (some v) := by
  have hI := reachable_tableInv hr
  have hI' := tableInv_insert hI h
  obtain ⟨-, hsz, hl, -, -⟩ := hI
  obtain ⟨s, hsl, hocc, -, -⟩ := insert_found (by rw [hl, hsz]) (by rw [hsz]; norm_num) h
  exact search_found_value hI' hsl hocc

/-- C4 witness: round-trip on the fresh table for key "i". -/
theorem C4_insert_search_roundtrip_witness :
    ∃ fuel2, ht_search tMid [105] fuel2 = some (some [104]) :=
  C4_insert_search_roundtrip Reachable.new
    (show ht_insert ht_new [105] [104] 1 = some tMid by decide)

/-- C5: on every reachable table no two occupied buckets hold the same key
(`ht_insert` and `ht_delete` preserve the invariant established by
`ht_new`). -/
theorem C5_no_duplicate_keys {t : HashTable} (hr : Reachable t) : NoDupKeys t :=
  (reachable_tableInv hr).2.2.2.1

/-- C5 witness: key uniqueness evaluated on the reachable table `tMid`. -/
theorem C5_no_duplicate_keys_witness : NoDupKeys tMid :=
  C5_no_duplicate_keys
    (Reachable.insert Reachable.new
      (show ht_insert ht_new [105] [104] 1 = some tMid by decide))

/-- C6: overwriting a key on a reachable table: after a completed
`insert(k, v1)` and a completed `insert(k, v2)`, a search returns `v2`,
the second insert leaves `count` unchanged, and it rewrites in place the
very bucket that held `(k, v1)`, leaving every other bucket untouched. -/
theorem C6_overwrite {t t1 t2 : HashTable} {k v1 v2 : Str} {f1 f2 : Nat}
    (hr : Reachable t) (h1 : ht_insert t k v1 f1 = some t1)
    (h2 : ht_insert t1 k v2 f2 = some t2) :
    (∃ fuel3, ht_search t2 k fuel3 = some (some v2)) ∧
    t2.count = t1.count ∧
    ∃ s, s < t1.items.length ∧ t1.slot s = .occupied k v1 ∧
      t2.items = t1.items.set s (.occupied k v2) := by
  have hI := reachable_tableInv hr
  have hI1 := tableInv_insert hI h1
  have hI2 := tableInv_insert hI1 h2
  obtain ⟨-, hsz, hl, -, -⟩ := hI
  obtain ⟨s, hsl, hocc, -, -⟩ := insert_found (by rw [hl, hsz]) (by rw [hsz]; norm_num) h1
  have ht2 := insert_overwrites hI1 hsl hocc h2
  subst ht2
  refine ⟨?_, rfl, s, hsl, hocc, rfl⟩
  have hocc2 : ({ t1 with items := t1.items.set s (.occupied k v2) } : HashTable).slot s
      = .occupied k v2 := by
    simp only [HashTable.slot]
    exact getD_set_same _ _ _ hsl
  exact search_found_value hI2 (by simpa using hsl) hocc2

/-- C6 witness: overwrite of key "i" on the fresh table. -/
theorem C6_overwrite_witness :
    (∃ fuel3, ht_search tMid2 [105] fuel3 = some (some [106])) ∧
    tMid2.count = tMid.count ∧
    ∃ s, s < tMid.items.length ∧ tMid.slot s = .occupied [105] [104] ∧
      tMid2.items = tMid.items.set s (.occupied [105] [106]) :=
  C6_overwrite Reachable.new
    (show ht_insert ht_new [105] [104] 1 = some tMid by decide)
    (show ht_insert tMid [105] [106] 1 = some tMid2 by decide)

/-- C7: deleting a key held by bucket `s` of a reachable table tombstones
exactly that bucket (it becomes the `HT_DELETED_ITEM` sentinel, not `NULL`),
decrements `count` by exactly one, and any search for the key whose loop
exits afterwards reports not-found. -/
theorem C7_delete_present {t t' : HashTable} {k v : Str} {s : Nat} {fuel : Nat}
    (hr : Reachable t) (hs : s < t.items.length) (hocc : t.slot s = .occupied k v)
    (h : ht_delete t k fuel = some t') :
    t'.items = t.items.set s .deleted ∧ t'.count = t.count - 1 ∧
    ∀ fuel2 r, ht_search t' k fuel2 = some r → r = none := by
  have hI := reachable_tableInv hr
  have ht' := delete_removes hI hs hocc h
  obtain ⟨-, hsz, hl, hnd, -⟩ := hI
  subst ht'
  refine ⟨rfl, rfl, ?_⟩
  apply search_none_of_absent (by simp only [List.length_set]; rw [hl, hsz])
    (by rw [hsz]; norm_num)
  intro j w hj hkj
  simp only [HashTable.slot, List.length_set] at hj hkj
  rw [getD_set_cases hs] at hkj
  by_cases hjs : j = s
  · rw [if_pos hjs] at hkj; cases hkj
  · rw [if_neg hjs] at hkj
    exact hjs (hnd j s k w v hj hs hkj hocc)

/-- C7 witness: delete of the present key "i" from `tMid`, checked on the
tombstone layout and the decremented count. -/
theorem C7_delete_present_witness :
    tCI.items = tMid.items.set 52 .deleted ∧ tCI.count = tMid.count - 1 :=
  ⟨(C7_delete_present
      (Reachable.insert Reachable.new
        (show ht_insert ht_new [105] [104] 1 = some tMid by decide))
      (show 52 < tMid.items.length by decide)
      (show tMid.slot 52 = .occupied [105] [104] by decide)
      (show ht_delete tMid [105] 1 = some tCI by decide)).1,
   (C7_delete_present
      (Reachable.insert Reachable.new
        (show ht_insert ht_new [105] [104] 1 = some tMid by decide))
      (show 52 < tMid.items.length by decide)
      (show tMid.slot 52 = .occupied [105] [104] by decide)
      (show ht_delete tMid [105] 1 = some tCI by decide)).2.1⟩

/-- C8 counterexample (negation of the claim): `ht_insert` never realizes a
`Tombstone → Occupied` transition — a bucket holding the deleted sentinel
before a completed insert still holds it afterwards, for every table, key,
value and fuel. -/
theorem C8_counterexample :
    ¬ ∃ (t t' : HashTable) (k v : Str) (fuel idx : Nat),
        ht_insert t k v fuel = some t' ∧ idx < t.items.length ∧
        t.slot idx = .deleted ∧ t'.slot idx ≠ .deleted := by
  rintro ⟨t, t', k, v, fuel, idx, h, hlt, hdel, hne⟩
  obtain ⟨a, -, -, hcase⟩ := insertGo_result fuel 0 (Scanned.zero t k) h
  rcases hcase with ⟨hemp, rfl⟩ | ⟨w, hocc, rfl⟩
  · by_cases hip : idx = probe t k a
    · rw [hip] at hdel; rw [hdel] at hemp; cases hemp
    · refine hne ?_
      simp only [HashTable.slot]
      rw [getD_set_other _ _ _ hip]
      exact hdel
  · by_cases hip : idx = probe t k a
    · rw [hip] at hdel; rw [hdel] at hocc; cases hocc
    · refine hne ?_
      simp only [HashTable.slot]
      rw [getD_set_other _ _ _ hip]
      exact hdel

/-- C8 (amended): a completed insert writes exactly one bucket, which was
either `NULL` (new placement, count incremented) or occupied by the same
key (overwrite, count unchanged) — never a tombstone; tombstone buckets
are skipped, not reused. -/
theorem C8_insert_never_reuses_tombstone {t t' : HashTable} {k v : Str} {fuel : Nat}
    (h : ht_insert t k v fuel = some t') :
    ∃ idx, t'.items = t.items.set idx (.occupied k v) ∧
      ((t.slot idx = .empty ∧ t'.count = t.count + 1) ∨
       (∃ w, t.slot idx = .occupied k w ∧ t'.count = t.count)) := by
  obtain ⟨a, -, -, hcase⟩ := insertGo_result fuel 0 (Scanned.zero t k) h
  rcases hcase with ⟨hemp, rfl⟩ | ⟨w, hocc, rfl⟩
  · exact ⟨probe t k a, rfl, Or.inl ⟨hemp, rfl⟩⟩
  · exact ⟨probe t k a, rfl, Or.inr ⟨w, hocc, rfl⟩⟩

/-- C8 witness: the amended statement for the first insert into the fresh
table. -/
theorem C8_insert_never_reuses_tombstone_witness :
    ∃ idx, tMid.items = ht_new.items.set idx (.occupied [105] [104]) ∧
      ((ht_new.slot idx = .empty ∧ tMid.count = ht_new.count + 1) ∨
       (∃ w, ht_new.slot idx = .occupied [105] w ∧ tMid.count = ht_new.count)) :=
  C8_insert_never_reuses_tombstone
    (show ht_insert ht_new [105] [104] 1 = some tMid by decide)

/-- C9 counterexample: the per-character term `pow(a, len-(i+1)) * s[i]` of
`ht_hash` is computed in full before any reduction; for the 27-character
string "aaa…a" its first term `151^26 · 97` already exceeds
`LONG_MAX = 2^63 - 1`, so the "no intermediate value overflows" part of the
claim is false. -/
theorem C9_counterexample :
    ∃ x ∈ ht_hashTerms (List.replicate 27 97) HT_PRIME_1, 9223372036854775807 < x := by
  decide

/-- C9 (amended): for every string, multiplier and positive modulus,
`ht_hash` is a deterministic value in `[0, m)` equal (in exact arithmetic)
to the base-`a` polynomial of the character codes reduced mod `m` — the
accumulator is reduced incrementally, though the per-character terms are
not — and the empty string hashes to 0. -/
theorem C9_hash_contract (s : Str) (a m : Nat) (hm : 0 < m) :
    ht_hash s a m < m ∧ ht_hash s a m = specPolyHash s a % m ∧ ht_hash [] a m = 0 :=
  ⟨ht_hash_lt s a hm, ht_hash_eq_specPolyHash s a hm, rfl⟩

/-- C9 witness: the hash contract evaluated at the string "hi",
multiplier 151, modulus 7. -/
theorem C9_hash_contract_witness :
    0 < 7 ∧ (ht_hash [104, 105] HT_PRIME_1 7 < 7 ∧
      ht_hash [104, 105] HT_PRIME_1 7 = specPolyHash [104, 105] HT_PRIME_1 % 7 ∧
      ht_hash [] HT_PRIME_1 7 = 0) :=
  ⟨by norm_num, C9_hash_contract [104, 105] HT_PRIME_1 7 (by norm_num)⟩

/-- C10: on a reachable table, a search whose loop exits returns `NULL`
exactly when no occupied bucket holds the key; a non-`NULL` return is the
stored value of the unique bucket holding it. -/
theorem C10_null_iff_absent {t : HashTable} {k : Str} {fuel : Nat} {r : Option Str}
    (hr : Reachable t) (h : ht_search t k fuel = some r) :
    r ≠ none ↔ ∃ s v, s < t.items.length ∧ t.slot s = .occupied k v := by
  obtain ⟨-, hsz, hl, hnd, hch⟩ := reachable_tableInv hr
  constructor
  · intro hne
    rcases searchGo_result fuel 0 (Scanned.zero t k) h with
      ⟨a, -, -, -, hr0⟩ | ⟨a, w, -, -, hocc, hr0⟩
    · exact absurd hr0 hne
    · exact ⟨probe t k a, w, by rw [hl, probe, hsz]; exact ht_get_hash_lt k a (by norm_num),
        hocc⟩
  · rintro ⟨s, v, hs, hocc⟩
    rcases searchGo_result fuel 0 (Scanned.zero t k) h with
      ⟨a, -, hsca, hemp, hr0⟩ | ⟨a, w, -, -, -, hr0⟩
    · exact absurd hocc (no_occupied_of_scanned_empty hch hsca hemp s v hs)
    · rw [hr0]; simp

/-- C10 witness: the not-found characterisation evaluated on `tMid` for the
present key "i". -/
theorem C10_null_iff_absent_witness :
    (some [104] : Option Str) ≠ none ↔
      ∃ s v, s < tMid.items.length ∧ tMid.slot s = .occupied [105] v :=
  C10_null_iff_absent
    (Reachable.insert Reachable.new
      (show ht_insert ht_new [105] [104] 1 = some tMid by decide))
    (show ht_search tMid [105] 1 = some (some [104]) by decide)
